import Mathlib

/-!
Verification of the HandNotes drawing application (`handnotes.py`).

The development shallowly embeds the parts of the program that the claims
are about:

* `ListManipulator` — the bounded history navigator (`ListManipulator` in
  the source), a list with a movable cursor and oldest-first eviction.
* `Canvas` — the drawing surface state: the supersampled PIL image buffer,
  the pending (not yet flushed) line segments, the last sampled point and
  the erase flag.  The PIL image is modelled as its dimensions, background
  color and the ordered list of draw commands applied to it (`DrawOp`);
  PIL's rasterizer is an external deterministic function of that list.
* `NoteApp` — the application state: config, canvas, history, and the note
  directory modelled as a list of file records.  Disk failures during save
  are injected through the `SaveFail` parameter, mirroring which statement
  of the `try` block raises.
-/

namespace HandNotes

/-- The configuration keys used by the drawing/persistence core
(`DEFAULTS` / `NoteApp._load_config`).  GUI-only keys (`x`, `y`,
`control_bg`, `button_bg`, `button_fg`, `workspace`) are omitted. -/
structure Config where
  ratio : Nat
  width : Nat
  height : Nat
  bg_color : String
  line_color : String
  line_width : Nat
  time_res : Nat
deriving DecidableEq

/-- The documented defaults from `DEFAULTS` in the source. -/
def defaultConfig : Config :=
  { ratio := 3, width := 600, height := 400, bg_color := "#dd6",
    line_color := "black", line_width := 3, time_res := 50 }

/-- `MAX_NOTES = 50` in the source. -/
def MAX_NOTES : Nat := 50

/-- A drawing command applied to a PIL image: `ImageDraw.line` (with the
constant `joint="curve"` omitted) or a filled `ImageDraw.ellipse` given by
its bounding box. -/
inductive DrawOp where
  | line (x1 y1 x2 y2 : Int) (color : String) (width : Nat)
  | ellipse (x1 y1 x2 y2 : Int) (color : String)
deriving DecidableEq

/-- A PIL image: its pixel dimensions, the fill color it was created with,
and the ordered list of draw commands applied to it since creation.  The
actual pixel raster is a deterministic function of these. -/
structure PILImage where
  w : Nat
  h : Nat
  background : String
  ops : List DrawOp
deriving DecidableEq

/-- `Image.new("RGB", (w, h), color)`. -/
def Image.new (w h : Nat) (color : String) : PILImage :=
  { w := w, h := h, background := color, ops := [] }

/-- `draw.line([x1, y1, x2, y2], fill=color, width=width, joint="curve")`. -/
def PILImage.drawLine (img : PILImage) (x1 y1 x2 y2 : Int)
    (color : String) (width : Nat) : PILImage :=
  { img with ops := img.ops ++ [.line x1 y1 x2 y2 color width] }

/-- `draw.ellipse([(x1, y1), (x2, y2)], fill=color)`. -/
def PILImage.drawEllipse (img : PILImage) (x1 y1 x2 y2 : Int)
    (color : String) : PILImage :=
  { img with ops := img.ops ++ [.ellipse x1 y1 x2 y2 color] }

/-! ## ListManipulator (history navigator) -/

/-- `ListManipulator`: `self._list`, `self._index` (an int, `-1` before the
first add) and `self.maxsize`. -/
structure ListManipulator (α : Type) where
  list : List α
  index : Int
  maxsize : Nat
deriving DecidableEq

/-- `ListManipulator.__init__(maxsize)`. -/
def ListManipulator.empty (α : Type) (maxsize : Nat) : ListManipulator α :=
  { list := [], index := -1, maxsize := maxsize }

/-- `ListManipulator.add`: append, pop the head if over `maxsize`, and move
the cursor to the last position. -/
def ListManipulator.add {α : Type} (lm : ListManipulator α) (item : α) :
    ListManipulator α :=
  let grown := lm.list ++ [item]
  let trimmed := if grown.length > lm.maxsize then grown.tail else grown
  { lm with list := trimmed, index := (trimmed.length : Int) - 1 }

/-- `ListManipulator.previous`: returns the Python return value (`None`
when the guard fails) together with the mutated state. -/
def ListManipulator.previous {α : Type} (lm : ListManipulator α) :
    Option α × ListManipulator α :=
  if 0 < lm.index then
    let i := lm.index - 1
    (lm.list[i.toNat]?, { lm with index := i })
  else (none, lm)

/-- `ListManipulator.next`: returns the Python return value (`None` when
the guard fails) together with the mutated state. -/
def ListManipulator.next {α : Type} (lm : ListManipulator α) :
    Option α × ListManipulator α :=
  if lm.index < (lm.list.length : Int) - 1 then
    let i := lm.index + 1
    (lm.list[i.toNat]?, { lm with index := i })
  else (none, lm)

/-! ## Canvas -/

/-- The mutable state of `Canvas`: the supersampled buffer `self.image`,
`self._pending_lines`, the last sampled point (`self.last_x/last_y`,
`none` for Python's `None`), and `self.erasing`.  The Qt pixmap is a pure
function of the buffer and the pending lines, so it is not part of the
state; `_rebuild_base_pixmap`'s one state effect is clearing
`_pending_lines`. -/
structure Canvas where
  image : PILImage
  pending_lines : List (Int × Int × Int × Int)
  last : Option (Int × Int)
  erasing : Bool
deriving DecidableEq

/-- `Canvas.__init__`: a blank `(width*ratio) × (height*ratio)` buffer
filled with the background color, nothing pending, no last point, not
erasing. -/
def Canvas.init (cfg : Config) : Canvas :=
  { image := Image.new (cfg.width * cfg.ratio) (cfg.height * cfg.ratio) cfg.bg_color
    pending_lines := []
    last := none
    erasing := false }

/-- `Canvas._rebuild_base_pixmap`: recomputes the display pixmap (not
modelled) and clears `self._pending_lines`. -/
def Canvas.rebuild_base_pixmap (c : Canvas) : Canvas :=
  { c with pending_lines := [] }

/-- The body of the for-loop in `_flush_to_image`: one `draw.line` call
for one pending segment, at coordinates scaled by the ratio. -/
def drawPending (cfg : Config) (img : PILImage) :
    Int × Int × Int × Int → PILImage
  | (x1, y1, x2, y2) =>
    img.drawLine (x1 * cfg.ratio) (y1 * cfg.ratio) (x2 * cfg.ratio)
      (y2 * cfg.ratio) cfg.line_color cfg.line_width

/-- `Canvas._flush_to_image`: draw every pending segment into the buffer
at supersampled coordinates, then rebuild the pixmap (clearing the pending
list). -/
def Canvas.flush_to_image (cfg : Config) (c : Canvas) : Canvas :=
  if c.pending_lines = [] then c
  else
    let img := c.pending_lines.foldl (drawPending cfg) c.image
    Canvas.rebuild_base_pixmap { c with image := img }

/-- `Canvas._erase_at`: a filled ellipse of half-width
`line_width * 10` around `(x, y)` (already supersampled coordinates),
filled with the background color. -/
def Canvas.erase_at (cfg : Config) (img : PILImage) (x y : Int) : PILImage :=
  let r : Int := cfg.line_width * 10
  img.drawEllipse (x - r) (y - r) (x + r) (y + r) cfg.bg_color

/-- The in-bounds test of `Canvas._sample_mouse_position`:
`0 <= x < self.canvas_w and 0 <= y < self.canvas_h`. -/
def inCanvas (cfg : Config) (x y : Int) : Prop :=
  0 ≤ x ∧ x < (cfg.width : Int) ∧ 0 ≤ y ∧ y < (cfg.height : Int)

instance (cfg : Config) (x y : Int) : Decidable (inCanvas cfg x y) := by
  unfold inCanvas; infer_instance

/-- `Canvas._sample_mouse_position`, with the cursor position `(x, y)`
passed in (in the source it is read from the global cursor).  Out of
bounds: no change.  In bounds with a previous point: erase immediately or
append a pending segment; then record the point as the last one. -/
def Canvas.sample_mouse_position (cfg : Config) (c : Canvas) (x y : Int) :
    Canvas :=
  if inCanvas cfg x y then
    match c.last with
    | some (lx, ly) =>
      if c.erasing then
        Canvas.rebuild_base_pixmap
          { c with
              image := Canvas.erase_at cfg c.image (x * cfg.ratio) (y * cfg.ratio),
              last := some (x, y) }
      else
        { c with
            pending_lines := c.pending_lines ++ [(lx, ly, x, y)],
            last := some (x, y) }
    | none => { c with last := some (x, y) }
  else c

/-- `Canvas.set_image`: replace the buffer and rebuild the pixmap. -/
def Canvas.set_image (c : Canvas) (img : PILImage) : Canvas :=
  Canvas.rebuild_base_pixmap { c with image := img }

/-! ## Canvas event runs (for the cadence-independence claim)

`_flush_and_continue` (the timer tick) is a flush followed by a sample,
and `mouseReleaseEvent` flushes; so any interactive run of the canvas is
an interleaving of `sample` and `flush` events. -/

/-- One canvas input event: a pointer-position sample, or a
`_flush_to_image` call (from the timer tick or from the release
handler). -/
inductive CanvasEvent where
  | sample (x y : Int)
  | flush
deriving DecidableEq

/-- Apply one event to the canvas state. -/
def canvasStep (cfg : Config) (c : Canvas) : CanvasEvent → Canvas
  | .sample x y => Canvas.sample_mouse_position cfg c x y
  | .flush => Canvas.flush_to_image cfg c

/-- Run a sequence of canvas events. -/
def runCanvas (cfg : Config) (c : Canvas) (es : List CanvasEvent) : Canvas :=
  es.foldl (canvasStep cfg) c

/-- The subsequence of sampled cursor positions in an event list. -/
def samplesOf : List CanvasEvent → List (Int × Int)
  | [] => []
  | .sample x y :: es => (x, y) :: samplesOf es
  | .flush :: es => samplesOf es

/-- The display-space segments that a list of in-order samples produces,
starting from a given last point: each in-bounds sample after the first
contributes the segment from the previous point, out-of-bounds samples
are skipped. -/
def segsFrom (cfg : Config) :
    Option (Int × Int) → List (Int × Int) → List (Int × Int × Int × Int)
  | _, [] => []
  | last, (x, y) :: ps =>
    if inCanvas cfg x y then
      match last with
      | some (lx, ly) => (lx, ly, x, y) :: segsFrom cfg (some (x, y)) ps
      | none => segsFrom cfg (some (x, y)) ps
    else segsFrom cfg last ps

/-- The last point recorded after a list of samples (out-of-bounds samples
leave it unchanged). -/
def lastPoint (cfg : Config) :
    Option (Int × Int) → List (Int × Int) → Option (Int × Int)
  | last, [] => last
  | last, (x, y) :: ps =>
    if inCanvas cfg x y then lastPoint cfg (some (x, y)) ps
    else lastPoint cfg last ps

/-- The draw command that flushing one display-space segment appends to
the buffer. -/
def scaleSeg (cfg : Config) (s : Int × Int × Int × Int) : DrawOp :=
  match s with
  | (x1, y1, x2, y2) =>
    .line (x1 * cfg.ratio) (y1 * cfg.ratio) (x2 * cfg.ratio) (y2 * cfg.ratio)
      cfg.line_color cfg.line_width

/-! ## NoteApp and persistence -/

/-- A file in the note directory: its name, its filesystem modification
time, and the image it decodes to. -/
structure FileRec where
  name : String
  mtime : Nat
  content : PILImage
deriving DecidableEq

/-- Stable insertion of a file into a list sorted by ascending mtime
(before the first strictly-later file, after equal mtimes seen so far
would be unstable, so ties place the inserted file first — combined with
`sortByMtime`'s fold this reproduces Python's stable `sorted`). -/
def insertByMtime (f : FileRec) : List FileRec → List FileRec
  | [] => [f]
  | g :: gs => if f.mtime ≤ g.mtime then f :: g :: gs else g :: insertByMtime f gs

/-- `sorted(files, key=getmtime)`: stable sort by ascending mtime. -/
def sortByMtime : List FileRec → List FileRec
  | [] => []
  | f :: fs => insertByMtime f (sortByMtime fs)

/-- Python's `name.endswith(".png")`, on the character data. -/
def endsWithPng (s : String) : Bool :=
  List.isSuffixOf ".png".data s.data

/-- The timestamped note file name, `f"note_{ts}.png"` with the timestamp
abstracted to a number. -/
def note_name (now : Nat) : String :=
  "note_" ++ toString now ++ ".png"

/-- Which statement of `save_note`'s `try` block raises, if any:
`writeFail` for `img.save`, `removeFail k` for the `k`-th `os.remove`
(or the listing itself when `k = 0` removals succeeded). -/
inductive SaveFail where
  | ok
  | writeFail
  | removeFail (k : Nat)
deriving DecidableEq

/-- The `NoteApp` state: config, canvas, the in-memory history, and the
note directory (`CONFIG_DIR`) as a list of file records. -/
structure NoteApp where
  cfg : Config
  canvas : Canvas
  notes : ListManipulator PILImage
  dir : List FileRec
deriving DecidableEq

/-- The file record that `save_note` writes: the timestamped name, the
current time as mtime, and a copy of the canvas buffer — the buffer is
saved as-is, no resize is applied before `img.save`. -/
def writtenRecord (app : NoteApp) (now : Nat) : FileRec :=
  { name := note_name now, mtime := now, content := app.canvas.image }

/-- `os.remove` over a list of names: drop the files so named. -/
def removeByNames (dir : List FileRec) (names : List String) : List FileRec :=
  dir.filter (fun f => !(names.contains f.name))

/-- `NoteApp.save_note`.  The `try` body: copy the buffer, add it to the
history, write it as a new timestamped file (overwriting a same-named
file), list the `.png` files sorted by mtime, and remove all but the last
`MAX_NOTES`.  A `SaveFail` aborts the rest of the body; the `except`
clause catches it and logs (the returned `Option String`), so the
function always returns a state — the session never terminates. -/
def save_note (app : NoteApp) (now : Nat) (fail : SaveFail) :
    NoteApp × Option String :=
  let img := app.canvas.image
  let notes := app.notes.add img
  let written := writtenRecord app now
  let dir1 := app.dir.filter (fun f => !(f.name == written.name)) ++ [written]
  let files := sortByMtime (dir1.filter (fun f => endsWithPng f.name))
  let doomed := files.take (files.length - MAX_NOTES)
  match fail with
  | .writeFail => ({ app with notes := notes }, some "Error saving")
  | .removeFail k =>
    let dir2 := removeByNames dir1 ((doomed.take k).map FileRec.name)
    ({ app with notes := notes, dir := dir2 }, some "Error saving")
  | .ok =>
    let dir2 := removeByNames dir1 (doomed.map FileRec.name)
    ({ app with notes := notes, dir := dir2 }, none)

/-- `NoteApp._previous_note`: move the history cursor back and, if an
image came back, install a copy of it as the buffer. -/
def previous_note (app : NoteApp) : NoteApp :=
  match app.notes.previous with
  | (some img, notes) =>
    { app with notes := notes, canvas := app.canvas.set_image img }
  | (none, notes) => { app with notes := notes }

/-- `NoteApp._next_note`: move the history cursor forward and, if an
image came back, install a copy of it as the buffer. -/
def next_note (app : NoteApp) : NoteApp :=
  match app.notes.next with
  | (some img, notes) =>
    { app with notes := notes, canvas := app.canvas.set_image img }
  | (none, notes) => { app with notes := notes }

/-- `NoteApp.__init__` on a fresh install (no existing note files): a
blank canvas, an empty history bounded by `MAX_NOTES`, an empty note
directory. -/
def freshApp (cfg : Config) : NoteApp :=
  { cfg := cfg, canvas := Canvas.init cfg,
    notes := ListManipulator.empty PILImage MAX_NOTES, dir := [] }

/-! ## Operation sequences on the history navigator -/

/-- One operation on a `ListManipulator`. -/
inductive LMOp (α : Type) where
  | add (a : α)
  | prev
  | next
deriving DecidableEq

/-- Apply one operation (the returned image, if any, is discarded — only
the state matters for the invariant). -/
def LMOp.apply {α : Type} (lm : ListManipulator α) : LMOp α → ListManipulator α
  | .add a => lm.add a
  | .prev => lm.previous.2
  | .next => lm.next.2

/-- Run a sequence of operations from a fresh `ListManipulator(maxsize=m)`. -/
def runLM (α : Type) (m : Nat) (ops : List (LMOp α)) : ListManipulator α :=
  ops.foldl LMOp.apply (ListManipulator.empty α m)

/-- The `ListManipulator` state invariant: the list never exceeds
`maxsize`, and the cursor is `-1` exactly in the never-added-to empty
state, otherwise a valid position into the list. -/
def LMInv {α : Type} (lm : ListManipulator α) : Prop :=
  lm.list.length ≤ lm.maxsize ∧
  ((lm.list = [] ∧ lm.index = -1) ∨
    (0 ≤ lm.index ∧ lm.index ≤ (lm.list.length : Int) - 1))

instance {α : Type} [DecidableEq α] (lm : ListManipulator α) :
    Decidable (LMInv lm) := by
  unfold LMInv; infer_instance

/-- A note directory holding 60 records with distinct ascending mtimes
`0,…,59` — the starting point of the spec's pruning scenario. -/
def app60 : NoteApp :=
  { cfg := defaultConfig, canvas := Canvas.init defaultConfig,
    notes := ListManipulator.empty PILImage MAX_NOTES,
    dir := (List.range 60).map (fun i =>
      { name := toString i ++ ".png", mtime := i,
        content := Image.new 1 1 "#dd6" }) }

/-! ## Theorems -/

/-- `add` never changes `maxsize`. -/
lemma add_maxsize {α : Type} (s : ListManipulator α) (a : α) :
    (s.add a).maxsize = s.maxsize := rfl

/-- `add` on a full list pops the head after appending. -/
lemma add_list_of_full {α : Type} (s : ListManipulator α) (a : α)
    (h : s.maxsize < s.list.length + 1) :
    (s.add a).list = (s.list ++ [a]).tail := by
  simp only [ListManipulator.add]
  rw [if_pos (by simpa using h)]

/-- `add` below capacity only appends. -/
lemma add_list_of_room {α : Type} (s : ListManipulator α) (a : α)
    (h : s.list.length + 1 ≤ s.maxsize) :
    (s.add a).list = s.list ++ [a] := by
  simp only [ListManipulator.add]
  rw [if_neg (by simp; omega)]

/-- Folding `add` keeps the last `maxsize` of everything ever added (here
from an arbitrary admissible start state), and never changes `maxsize`. -/
lemma foldl_add_list {α : Type} (p : List α) (s : ListManipulator α)
    (hcap : 1 ≤ s.maxsize) (hlen : s.list.length ≤ s.maxsize) :
    (p.foldl ListManipulator.add s).list =
      (s.list ++ p).drop (s.list.length + p.length - s.maxsize) ∧
    (p.foldl ListManipulator.add s).maxsize = s.maxsize := by
  induction p generalizing s with
  | nil =>
    have h0 : s.list.length - s.maxsize = 0 := by omega
    simp [h0]
  | cons a p ih =>
    have hstep : List.foldl ListManipulator.add s (a :: p) =
        List.foldl ListManipulator.add (s.add a) p := rfl
    rw [hstep]
    by_cases hful : s.maxsize < s.list.length + 1
    · -- the list was full: `add` pops the head
      have hn : s.list.length = s.maxsize := by omega
      obtain ⟨f, rest, hfr⟩ : ∃ f rest, s.list = f :: rest := by
        cases hs : s.list with
        | nil => rw [hs] at hn; simp at hn; omega
        | cons f rest => exact ⟨f, rest, rfl⟩
      have hal : (s.add a).list = rest ++ [a] := by
        rw [add_list_of_full s a hful, hfr, List.cons_append, List.tail_cons]
      have hr : rest.length + 1 = s.maxsize := by
        rw [hfr] at hn; simpa using hn
      obtain ⟨ih1, ih2⟩ := ih (s.add a)
        (by rw [add_maxsize]; exact hcap)
        (by rw [hal, add_maxsize]; simp; omega)
      rw [add_maxsize] at ih1 ih2
      refine ⟨?_, ih2⟩
      rw [ih1, hal]
      have h1 : (rest ++ [a]).length + p.length - s.maxsize = p.length := by
        simp; omega
      have h2 : s.list.length + (a :: p).length - s.maxsize = p.length + 1 := by
        simp; omega
      rw [h1, h2, hfr, List.cons_append, List.drop_succ_cons, List.append_assoc,
        List.singleton_append]
    · -- still room: `add` only appends
      have hal : (s.add a).list = s.list ++ [a] := add_list_of_room s a (by omega)
      obtain ⟨ih1, ih2⟩ := ih (s.add a)
        (by rw [add_maxsize]; exact hcap)
        (by rw [hal, add_maxsize]; simp; omega)
      rw [add_maxsize] at ih1 ih2
      refine ⟨?_, ih2⟩
      rw [ih1, hal]
      have h1 : (s.list ++ [a]).length + p.length - s.maxsize =
          s.list.length + (a :: p).length - s.maxsize := by simp; omega
      rw [h1, List.append_assoc, List.singleton_append]

/-- After any non-empty run of `add`s the cursor sits at the last
position of the resulting list. -/
lemma foldl_add_index {α : Type} (p : List α) (s : ListManipulator α)
    (hp : p ≠ []) :
    (p.foldl ListManipulator.add s).index =
      ((p.foldl ListManipulator.add s).list.length : Int) - 1 := by
  induction p generalizing s with
  | nil => cases hp rfl
  | cons a p ih =>
    cases p with
    | nil => simp [ListManipulator.add]
    | cons b q => exact ih (s.add a) (by simp)

/-- C4: adding `N > cap` items to a navigator of capacity `cap ≥ 1`
leaves exactly the last `cap` items (the `N − cap` oldest evicted, in
insertion order), with the cursor at the last index. -/
theorem add_beyond_capacity_evicts_oldest {α : Type} (cap : Nat)
    (items : List α) (hcap : 1 ≤ cap) (hN : cap < items.length) :
    (items.foldl ListManipulator.add (ListManipulator.empty α cap)).list =
      items.drop (items.length - cap) ∧
    (items.foldl ListManipulator.add (ListManipulator.empty α cap)).list.length = cap ∧
    (items.foldl ListManipulator.add (ListManipulator.empty α cap)).index =
      (cap : Int) - 1 := by
  have hempty : (ListManipulator.empty α cap).list = [] := rfl
  have hmax : (ListManipulator.empty α cap).maxsize = cap := rfl
  obtain ⟨h1, -⟩ := foldl_add_list items (ListManipulator.empty α cap)
    (by rw [hmax]; exact hcap) (by rw [hempty, hmax]; simp)
  rw [hempty, hmax] at h1
  simp only [List.nil_append, List.length_nil, Nat.zero_add] at h1
  have hlen : (items.foldl ListManipulator.add (ListManipulator.empty α cap)).list.length
      = cap := by
    rw [h1, List.length_drop]
    omega
  refine ⟨h1, hlen, ?_⟩
  have hidx := foldl_add_index items (ListManipulator.empty α cap)
    (by intro h; rw [h] at hN; simp at hN)
  rw [hidx, hlen]

/-- Witness for `add_beyond_capacity_evicts_oldest`: three adds into a
capacity-2 navigator keep `[20, 30]` with the cursor at index 1. -/
theorem add_beyond_capacity_evicts_oldest_witness :
    ([10, 20, 30].foldl ListManipulator.add (ListManipulator.empty Nat 2)).list =
      [20, 30] ∧
    ([10, 20, 30].foldl ListManipulator.add (ListManipulator.empty Nat 2)).index = 1 := by
  have h := add_beyond_capacity_evicts_oldest 2 [10, 20, 30] (by decide) (by decide)
  refine ⟨h.1.trans (by decide), h.2.2.trans (by decide)⟩

/-- Every `ListManipulator` operation preserves the state invariant and
the capacity. -/
lemma lminv_step {α : Type} (lm : ListManipulator α) (op : LMOp α)
    (hm : 1 ≤ lm.maxsize) (h : LMInv lm) :
    LMInv (LMOp.apply lm op) ∧ (LMOp.apply lm op).maxsize = lm.maxsize := by
  obtain ⟨hlen, hidx⟩ := h
  cases op with
  | add a =>
    refine ⟨⟨?_, Or.inr ?_⟩, add_maxsize lm a⟩
    · by_cases hful : lm.maxsize < lm.list.length + 1
      · rw [show (LMOp.apply lm (LMOp.add a)) = lm.add a from rfl,
          add_list_of_full lm a hful, add_maxsize, List.length_tail]
        simp; omega
      · rw [show (LMOp.apply lm (LMOp.add a)) = lm.add a from rfl,
          add_list_of_room lm a (by omega), add_maxsize]
        simp; omega
    · have hidx' : (lm.add a).index = ((lm.add a).list.length : Int) - 1 := rfl
      have hpos : 1 ≤ (lm.add a).list.length := by
        by_cases hful : lm.maxsize < lm.list.length + 1
        · rw [add_list_of_full lm a hful, List.length_tail]; simp; omega
        · rw [add_list_of_room lm a (by omega)]; simp
      rw [show (LMOp.apply lm (LMOp.add a)) = lm.add a from rfl, hidx']
      omega
  | prev =>
    simp only [LMOp.apply, ListManipulator.previous]
    split
    · rename_i hpos
      have hr : 0 ≤ lm.index ∧ lm.index ≤ (lm.list.length : Int) - 1 := by
        rcases hidx with ⟨-, hi⟩ | hr
        · omega
        · exact hr
      exact ⟨⟨hlen, Or.inr ⟨by simp; omega, by simp; omega⟩⟩, rfl⟩
    · exact ⟨⟨hlen, hidx⟩, rfl⟩
  | next =>
    simp only [LMOp.apply, ListManipulator.next]
    split
    · rename_i hlt
      have hge : 0 ≤ lm.index := by
        rcases hidx with ⟨hnil, hi⟩ | hr
        · rw [hnil] at hlt; simp at hlt; omega
        · exact hr.1
      exact ⟨⟨hlen, Or.inr ⟨by simp; omega, by simp; omega⟩⟩, rfl⟩
    · exact ⟨⟨hlen, hidx⟩, rfl⟩

/-- The invariant holds along any run from an admissible start state. -/
lemma runLM_inv_aux {α : Type} (ops : List (LMOp α)) (lm : ListManipulator α)
    (hm : 1 ≤ lm.maxsize) (h : LMInv lm) :
    LMInv (ops.foldl LMOp.apply lm) := by
  induction ops generalizing lm with
  | nil => exact h
  | cons op rest ih =>
    obtain ⟨h1, h2⟩ := lminv_step lm op hm h
    exact ih (LMOp.apply lm op) (by rw [h2]; exact hm) h1

/-- C10: for a navigator of capacity `m ≥ 1`, every finite sequence of
add/previous/next operations keeps the list within the bound with the
cursor either `-1` on the never-filled empty list or a valid position;
and `previous`/`next` on the fresh empty state return none without
error. -/
theorem lm_invariant_and_empty_navigation (α : Type) (m : Nat) (hm : 1 ≤ m)
    (ops : List (LMOp α)) :
    LMInv (runLM α m ops) ∧
    (ListManipulator.empty α m).previous.1 = none ∧
    (ListManipulator.empty α m).next.1 = none := by
  refine ⟨?_, rfl, rfl⟩
  exact runLM_inv_aux ops (ListManipulator.empty α m)
    (by simpa [ListManipulator.empty] using hm)
    ⟨by simp [ListManipulator.empty], Or.inl ⟨rfl, rfl⟩⟩

/-- Witness for `lm_invariant_and_empty_navigation` on a short mixed
operation sequence with capacity 2. -/
theorem lm_invariant_and_empty_navigation_witness :
    LMInv (runLM Nat 2 [LMOp.add 7, LMOp.add 8, LMOp.add 9, LMOp.prev,
      LMOp.prev, LMOp.next]) ∧
    (ListManipulator.empty Nat 2).previous.1 = none := by
  have h := lm_invariant_and_empty_navigation Nat 2 (by decide)
    [LMOp.add 7, LMOp.add 8, LMOp.add 9, LMOp.prev, LMOp.prev, LMOp.next]
  exact ⟨h.1, h.2.1⟩

/-- One pending segment appends exactly its scaled draw command. -/
lemma drawPending_eq (cfg : Config) (img : PILImage) (s : Int × Int × Int × Int) :
    drawPending cfg img s = { img with ops := img.ops ++ [scaleSeg cfg s] } := by
  obtain ⟨x1, y1, x2, y2⟩ := s
  rfl

/-- Folding the flush loop appends the scaled commands in order. -/
lemma foldl_drawPending (cfg : Config) (segs : List (Int × Int × Int × Int))
    (img : PILImage) :
    segs.foldl (drawPending cfg) img =
      { img with ops := img.ops ++ segs.map (scaleSeg cfg) } := by
  induction segs generalizing img with
  | nil => simp
  | cons s rest ih =>
    rw [List.foldl_cons, drawPending_eq, ih]
    simp [List.append_assoc]

/-- What `_flush_to_image` does, in closed form: append the scaled
pending segments to the buffer and clear the pending list, touching
nothing else. -/
lemma flush_to_image_spec (cfg : Config) (c : Canvas) :
    Canvas.flush_to_image cfg c =
      { c with
          image := { c.image with
            ops := c.image.ops ++ c.pending_lines.map (scaleSeg cfg) },
          pending_lines := [] } := by
  rw [Canvas.flush_to_image]
  split
  · rename_i hp
    obtain ⟨img0, pend0, last0, er0⟩ := c
    simp only at hp
    subst hp
    simp
  · rw [foldl_drawPending]
    rfl

/-- The buffer after a run and a final flush, in closed form: the
starting buffer, then the starting pending segments, then exactly the
segments derived from the sample subsequence — however the flushes were
interleaved. -/
lemma flush_runCanvas (cfg : Config) (es : List CanvasEvent) (c : Canvas)
    (he : c.erasing = false) :
    Canvas.flush_to_image cfg (runCanvas cfg c es) =
      { image := { c.image with
            ops := c.image.ops ++
              (c.pending_lines ++
                segsFrom cfg c.last (samplesOf es)).map (scaleSeg cfg) },
        pending_lines := [],
        last := lastPoint cfg c.last (samplesOf es),
        erasing := false } := by
  induction es generalizing c with
  | nil =>
    rw [show runCanvas cfg c [] = c from rfl, flush_to_image_spec]
    obtain ⟨img0, pend0, last0, er0⟩ := c
    simp only at he
    subst he
    simp [samplesOf, segsFrom, lastPoint]
  | cons e rest ih =>
    have hstep : runCanvas cfg c (e :: rest) =
        runCanvas cfg (canvasStep cfg c e) rest := rfl
    rw [hstep]
    cases e with
    | flush =>
      have he' : (Canvas.flush_to_image cfg c).erasing = false := by
        rw [flush_to_image_spec]; exact he
      rw [show canvasStep cfg c .flush = Canvas.flush_to_image cfg c from rfl,
        ih (Canvas.flush_to_image cfg c) he', flush_to_image_spec]
      simp [samplesOf, List.map_append, List.append_assoc]
    | sample x y =>
      rw [show canvasStep cfg c (.sample x y) =
        Canvas.sample_mouse_position cfg c x y from rfl]
      by_cases hin : inCanvas cfg x y
      · cases hl : c.last with
        | none =>
          have hs : Canvas.sample_mouse_position cfg c x y =
              { c with last := some (x, y) } := by
            rw [Canvas.sample_mouse_position, if_pos hin, hl]
          rw [hs, ih { c with last := some (x, y) } he]
          simp [samplesOf, segsFrom, lastPoint, hin, hl]
        | some p =>
          obtain ⟨lx, ly⟩ := p
          have hs : Canvas.sample_mouse_position cfg c x y =
              { c with
                  pending_lines := c.pending_lines ++ [(lx, ly, x, y)],
                  last := some (x, y) } := by
            rw [Canvas.sample_mouse_position, if_pos hin, hl]
            simp [he]
          rw [hs, ih { c with
            pending_lines := c.pending_lines ++ [(lx, ly, x, y)],
            last := some (x, y) } he]
          simp [samplesOf, segsFrom, lastPoint, hin, hl, List.append_assoc]
      · have hs : Canvas.sample_mouse_position cfg c x y = c := by
          rw [Canvas.sample_mouse_position, if_neg hin]
        rw [hs, ih c he]
        simp [samplesOf, segsFrom, lastPoint, hin]

/-- C3: in draw mode the buffer that results after all pending lines are
flushed is a function of the received sample sequence alone (for a given
config: color, width, ratio) — runs whose timer flushes fall at
different points between the same samples end in identical states. -/
theorem draw_buffer_cadence_independent (cfg : Config) (c : Canvas)
    (es1 es2 : List CanvasEvent) (he : c.erasing = false)
    (hs : samplesOf es1 = samplesOf es2) :
    Canvas.flush_to_image cfg (runCanvas cfg c es1) =
      Canvas.flush_to_image cfg (runCanvas cfg c es2) := by
  rw [flush_runCanvas cfg es1 c he, flush_runCanvas cfg es2 c he, hs]

/-- Witness for `draw_buffer_cadence_independent`: the samples `(1,1)`,
`(2,2)` with a timer flush between them versus no intermediate flush. -/
theorem draw_buffer_cadence_independent_witness :
    Canvas.flush_to_image defaultConfig
      (runCanvas defaultConfig (Canvas.init defaultConfig)
        [CanvasEvent.sample 1 1, CanvasEvent.flush, CanvasEvent.sample 2 2]) =
    Canvas.flush_to_image defaultConfig
      (runCanvas defaultConfig (Canvas.init defaultConfig)
        [CanvasEvent.sample 1 1, CanvasEvent.sample 2 2]) :=
  draw_buffer_cadence_independent defaultConfig (Canvas.init defaultConfig)
    [CanvasEvent.sample 1 1, CanvasEvent.flush, CanvasEvent.sample 2 2]
    [CanvasEvent.sample 1 1, CanvasEvent.sample 2 2] rfl rfl

/-- C5: `previous()` at cursor 0 returns none and changes nothing;
`next()` at the last index returns none and changes nothing; in every
other non-empty cursor state (the cursor inside `[0, len-1]`),
`previous()`/`next()` move the cursor by exactly one and return the
element at the new cursor position. -/
theorem previous_next_boundary_behavior {α : Type} (lm : ListManipulator α)
    (hne : lm.list ≠ []) (h0 : 0 ≤ lm.index)
    (hhi : lm.index ≤ (lm.list.length : Int) - 1) :
    (lm.index = 0 → lm.previous = (none, lm)) ∧
    (lm.index = (lm.list.length : Int) - 1 → lm.next = (none, lm)) ∧
    (0 < lm.index →
      lm.previous.2.index = lm.index - 1 ∧
      lm.previous.2.list = lm.list ∧
      lm.previous.1 = lm.list[(lm.index - 1).toNat]? ∧
      lm.previous.1.isSome = true) ∧
    (lm.index < (lm.list.length : Int) - 1 →
      lm.next.2.index = lm.index + 1 ∧
      lm.next.2.list = lm.list ∧
      lm.next.1 = lm.list[(lm.index + 1).toNat]? ∧
      lm.next.1.isSome = true) := by
  refine ⟨?_, ?_, ?_, ?_⟩
  · intro h; simp [ListManipulator.previous, h]
  · intro h; simp [ListManipulator.next, h]
  · intro h
    have hlt : lm.index.toNat - 1 < lm.list.length := by omega
    simp [ListManipulator.previous, h, List.getElem?_eq_getElem hlt]
  · intro h
    have hlt : lm.index.toNat + 1 < lm.list.length := by omega
    simp [ListManipulator.next, h, List.getElem?_eq_getElem hlt, Int.toNat_add h0]

/-- Witness for `previous_next_boundary_behavior` at the history
`[5, 6, 7]` with the cursor at position 1. -/
theorem previous_next_boundary_behavior_witness :
    (⟨[5, 6, 7], 1, 50⟩ : ListManipulator Nat).previous.2.index = 1 - 1 ∧
    (⟨[5, 6, 7], 1, 50⟩ : ListManipulator Nat).previous.1.isSome = true := by
  have h := previous_next_boundary_behavior (⟨[5, 6, 7], 1, 50⟩ : ListManipulator Nat)
    (by decide) (by decide) (by decide)
  obtain ⟨-, -, h3, -⟩ := h
  obtain ⟨h31, -, -, h34⟩ := h3 (by decide)
  exact ⟨h31, h34⟩

/-- C7: a pointer sample whose display coordinates fall outside
`[0, width) × [0, height)` leaves the whole canvas state — buffer,
pending lines and last point — unchanged (`_sample_mouse_position`
returns before touching anything). -/
theorem out_of_bounds_sample_ignored (cfg : Config) (c : Canvas) (x y : Int)
    (h : ¬ inCanvas cfg x y) :
    Canvas.sample_mouse_position cfg c x y = c := by
  simp only [Canvas.sample_mouse_position, if_neg h]

/-- Witness for `out_of_bounds_sample_ignored` at the point `(-5, 10)`. -/
theorem out_of_bounds_sample_ignored_witness :
    Canvas.sample_mouse_position defaultConfig (Canvas.init defaultConfig) (-5) 10 =
      Canvas.init defaultConfig :=
  out_of_bounds_sample_ignored defaultConfig (Canvas.init defaultConfig) (-5) 10
    (by decide)

/-- C9: `_previous_note` and `_next_note` never touch the note directory —
no file is created, deleted or modified by navigation. -/
theorem navigation_does_not_save (app : NoteApp) :
    (previous_note app).dir = app.dir ∧ (next_note app).dir = app.dir := by
  constructor
  · unfold previous_note
    rcases app.notes.previous with ⟨o, notes⟩
    cases o <;> rfl
  · unfold next_note
    rcases app.notes.next with ⟨o, notes⟩
    cases o <;> rfl

/-- C8: an in-bounds sample during an erase gesture (the last point is
set — the press handler sets it before any sample) appends to the buffer
exactly one filled circle: the ellipse whose bounding box spans
`10 × line_width` in every direction around the sample position scaled by
the ratio, filled with the background color; the rest of the buffer (its
prior commands and its dimensions) is unchanged. -/
theorem erase_paints_background_circle (cfg : Config) (c : Canvas)
    (x y lx ly : Int) (he : c.erasing = true) (hl : c.last = some (lx, ly))
    (hin : inCanvas cfg x y) :
    (Canvas.sample_mouse_position cfg c x y).image.ops =
      c.image.ops ++
        [DrawOp.ellipse (x * cfg.ratio - 10 * cfg.line_width)
          (y * cfg.ratio - 10 * cfg.line_width)
          (x * cfg.ratio + 10 * cfg.line_width)
          (y * cfg.ratio + 10 * cfg.line_width) cfg.bg_color] ∧
    (Canvas.sample_mouse_position cfg c x y).image.w = c.image.w ∧
    (Canvas.sample_mouse_position cfg c x y).image.h = c.image.h ∧
    (Canvas.sample_mouse_position cfg c x y).image.background =
      c.image.background := by
  have hs : Canvas.sample_mouse_position cfg c x y =
      Canvas.rebuild_base_pixmap
        { c with
            image := Canvas.erase_at cfg c.image (x * cfg.ratio) (y * cfg.ratio),
            last := some (x, y) } := by
    rw [Canvas.sample_mouse_position, if_pos hin, hl]
    simp [he]
  rw [hs]
  refine ⟨?_, rfl, rfl, rfl⟩
  show (Canvas.erase_at cfg c.image (x * cfg.ratio) (y * cfg.ratio)).ops = _
  rw [Canvas.erase_at]
  simp only [PILImage.drawEllipse]
  rw [Int.mul_comm (cfg.line_width : Int) 10]

/-- Witness for `erase_paints_background_circle` at the sample `(5, 6)`
with the default config. -/
theorem erase_paints_background_circle_witness :
    (Canvas.sample_mouse_position defaultConfig
      { image := Image.new 1800 1200 "#dd6", pending_lines := [],
        last := some (3, 4), erasing := true } 5 6).image.ops =
      [DrawOp.ellipse (-15) (-12) 45 48 "#dd6"] := by
  have h := erase_paints_background_circle defaultConfig
    { image := Image.new 1800 1200 "#dd6", pending_lines := [],
      last := some (3, 4), erasing := true } 5 6 3 4 rfl rfl (by decide)
  exact h.1.trans (by decide)

/-- Every note file name ends in `.png`. -/
lemma endsWithPng_note_name (now : Nat) : endsWithPng (note_name now) = true := by
  rw [endsWithPng, note_name, List.isSuffixOf_iff_suffix, String.data_append]
  exact List.suffix_append _ _

/-- C1 counterexample: on a fresh session under the default config
(`ratio = 3`, declared size 600×400) the save operation writes a file
whose pixel dimensions are 1800×1200 — the supersampled buffer size, not
the declared width×height the claim requires, and dependent on the
ratio. -/
theorem save_dimensions_counterexample :
    ((save_note (freshApp defaultConfig) 0 SaveFail.ok).1.dir.map
      (fun f => (f.content.w, f.content.h))) = [(1800, 1200)] ∧
    ¬ (((1800 : Nat), (1200 : Nat)) =
        (defaultConfig.width, defaultConfig.height)) := by
  decide

/-- C1 (amended): the save operation writes the Canvas Buffer unchanged —
no downsampling — as a new timestamped file; its pixel dimensions are
those of the supersampled buffer, `width×ratio` by `height×ratio` for a
canvas created by `Canvas.__init__`, hence dependent on the
supersampling ratio. -/
theorem save_writes_buffer_at_supersampled_size (app : NoteApp) (now : Nat) :
    (writtenRecord app now).content = app.canvas.image ∧
    (writtenRecord app now).name = note_name now ∧
    (∀ cfg : Config, app.canvas = Canvas.init cfg →
      (writtenRecord app now).content.w = cfg.width * cfg.ratio ∧
      (writtenRecord app now).content.h = cfg.height * cfg.ratio) ∧
    (app.dir = [] →
      (save_note app now SaveFail.ok).1.dir = [writtenRecord app now]) := by
  refine ⟨rfl, rfl, ?_, ?_⟩
  · intro cfg hc
    constructor
    · show app.canvas.image.w = _
      rw [hc]; rfl
    · show app.canvas.image.h = _
      rw [hc]; rfl
  · intro hdir
    simp [save_note, hdir, removeByNames, sortByMtime, insertByMtime,
      endsWithPng_note_name, writtenRecord, MAX_NOTES]

/-- Witness for `save_writes_buffer_at_supersampled_size` on a fresh
default-config session. -/
theorem save_writes_buffer_at_supersampled_size_witness :
    (writtenRecord (freshApp defaultConfig) 0).content.w = 600 * 3 ∧
    (save_note (freshApp defaultConfig) 0 SaveFail.ok).1.dir =
      [writtenRecord (freshApp defaultConfig) 0] := by
  have h := save_writes_buffer_at_supersampled_size (freshApp defaultConfig) 0
  exact ⟨(h.2.2.1 defaultConfig rfl).1, h.2.2.2 rfl⟩

/-- Inserting a file no later than every element of a list puts it in
front. -/
lemma insertByMtime_of_le (f : FileRec) (l : List FileRec)
    (h : ∀ g ∈ l, f.mtime ≤ g.mtime) : insertByMtime f l = f :: l := by
  cases l with
  | nil => rfl
  | cons g gs => rw [insertByMtime, if_pos (h g (List.mem_cons_self g gs))]

/-- Sorting an already mtime-sorted list is the identity. -/
lemma sortByMtime_sorted_eq (l : List FileRec)
    (h : List.Pairwise (fun f g => f.mtime ≤ g.mtime) l) : sortByMtime l = l := by
  induction l with
  | nil => rfl
  | cons f fs ih =>
    obtain ⟨h1, h2⟩ := List.pairwise_cons.mp h
    rw [sortByMtime, ih h2, insertByMtime_of_le f fs h1]

/-- Removing (by name) the first `k` files of a duplicate-free directory
keeps exactly the rest. -/
lemma removeByNames_take_eq_drop (l : List FileRec) (k : Nat)
    (h : (l.map FileRec.name).Nodup) :
    removeByNames l ((l.take k).map FileRec.name) = l.drop k := by
  induction l generalizing k with
  | nil => simp [removeByNames]
  | cons f fs ih =>
    rw [List.map_cons] at h
    obtain ⟨hf, hfs⟩ := List.nodup_cons.mp h
    cases k with
    | zero =>
      rw [List.take_zero, List.map_nil, List.drop_zero]
      exact List.filter_eq_self.mpr (fun g _ => by simp)
    | succ k =>
      have htake : ((f :: fs).take (k + 1)).map FileRec.name =
          f.name :: (fs.take k).map FileRec.name := by
        rw [List.take_succ_cons, List.map_cons]
      rw [htake, removeByNames, List.filter_cons]
      have hheadp :
          (!((f.name :: (fs.take k).map FileRec.name).contains f.name)) = false := by
        simp
      rw [hheadp]
      simp only [Bool.false_eq_true, if_false]
      have hcongr : fs.filter
          (fun g => !((f.name :: (fs.take k).map FileRec.name).contains g.name)) =
          fs.filter (fun g => !(((fs.take k).map FileRec.name).contains g.name)) := by
        apply List.filter_congr
        intro g hg
        have hne : g.name ≠ f.name := by
          intro heq
          exact hf (heq ▸ List.mem_map_of_mem FileRec.name hg)
        simp [List.contains_cons, hne]
      rw [hcongr]
      have hrec := ih k hfs
      rw [removeByNames] at hrec
      rw [hrec, List.drop_succ_cons]

/-- C2 counterexample: from 60 existing note records (ascending mtimes
`0…59`) one more save leaves exactly 50 files, but only 49 of the
original 60 survive — the code removes the 11 oldest of the 61 files
present after the write, not 10 as the claim's scenario states (which
would leave 50 originals). -/
theorem prune_scenario_counterexample :
    (save_note app60 60 SaveFail.ok).1.dir.length = 50 ∧
    (app60.dir.filter (fun f =>
      ((save_note app60 60 SaveFail.ok).1.dir.map FileRec.name).contains
        f.name)).length = 49 ∧
    ¬ ((49 : Nat) = 60 - 10) := by
  decide

/-- C2 (amended): after a successful save into a duplicate-free,
mtime-ascending directory of `.png` records no newer than the save, the
directory holds the newest `MAX_NOTES` of the old records plus the new
file — at most `MAX_NOTES` files in total; from 60 existing records, one
save leaves exactly 50 files, the 11 oldest of the original 60 removed. -/
theorem save_prunes_to_newest_max_notes (app : NoteApp) (now : Nat)
    (hsorted : List.Pairwise (fun f g => f.mtime ≤ g.mtime) app.dir)
    (hmt : ∀ f ∈ app.dir, f.mtime ≤ now)
    (hpng : ∀ f ∈ app.dir, endsWithPng f.name = true)
    (hname : note_name now ∉ app.dir.map FileRec.name)
    (hnodup : (app.dir.map FileRec.name).Nodup) :
    (save_note app now SaveFail.ok).1.dir =
      (app.dir ++ [writtenRecord app now]).drop
        (app.dir.length + 1 - MAX_NOTES) ∧
    (save_note app now SaveFail.ok).1.dir.length ≤ MAX_NOTES ∧
    (app.dir.length = 60 →
      (save_note app now SaveFail.ok).1.dir.length = 50 ∧
      (save_note app now SaveFail.ok).1.dir =
        app.dir.drop 11 ++ [writtenRecord app now]) := by
  have hfilter1 :
      app.dir.filter (fun f => !(f.name == (writtenRecord app now).name)) =
        app.dir := by
    apply List.filter_eq_self.mpr
    intro f hf
    have hne : f.name ≠ note_name now := by
      intro heq
      exact hname (heq ▸ List.mem_map_of_mem FileRec.name hf)
    simp [writtenRecord, hne]
  have hfilter2 :
      (app.dir ++ [writtenRecord app now]).filter
          (fun f => endsWithPng f.name) =
        app.dir ++ [writtenRecord app now] := by
    apply List.filter_eq_self.mpr
    intro f hf
    rcases List.mem_append.mp hf with hmem | hmem
    · exact hpng f hmem
    · rw [List.mem_singleton.mp hmem]
      exact endsWithPng_note_name now
  have hsort : sortByMtime (app.dir ++ [writtenRecord app now]) =
      app.dir ++ [writtenRecord app now] := by
    apply sortByMtime_sorted_eq
    apply List.pairwise_append.mpr
    refine ⟨hsorted, List.pairwise_singleton _ _, ?_⟩
    intro a ha b hb
    rw [List.mem_singleton.mp hb]
    exact hmt a ha
  have hnodup2 :
      ((app.dir ++ [writtenRecord app now]).map FileRec.name).Nodup := by
    rw [List.map_append]
    apply List.nodup_append.mpr
    refine ⟨hnodup, List.nodup_singleton _, ?_⟩
    intro a ha hb
    simp only [List.map_singleton, List.mem_singleton] at hb
    rw [hb] at ha
    exact hname ha
  have hsave : (save_note app now SaveFail.ok).1.dir =
      removeByNames (app.dir ++ [writtenRecord app now])
        (((app.dir ++ [writtenRecord app now]).take
          ((app.dir ++ [writtenRecord app now]).length - MAX_NOTES)).map
            FileRec.name) := by
    simp only [save_note]
    rw [hfilter1, hfilter2, hsort]
  have hmain := removeByNames_take_eq_drop (app.dir ++ [writtenRecord app now])
    ((app.dir ++ [writtenRecord app now]).length - MAX_NOTES) hnodup2
  have hlen : (app.dir ++ [writtenRecord app now]).length =
      app.dir.length + 1 := by simp
  rw [hmain, hlen] at hsave
  refine ⟨hsave, ?_, ?_⟩
  · rw [hsave, List.length_drop, hlen]
    omega
  · intro h60
    have hidx : app.dir.length + 1 - MAX_NOTES = 11 := by
      rw [h60]; rfl
    constructor
    · rw [hsave, List.length_drop, hlen, h60]
      decide
    · rw [hsave, hidx]
      exact List.drop_append_of_le_length (by omega)

/-- Witness for `save_prunes_to_newest_max_notes` on the concrete
60-record directory. -/
theorem save_prunes_to_newest_max_notes_witness :
    (save_note app60 60 SaveFail.ok).1.dir.length = 50 := by
  have h := save_prunes_to_newest_max_notes app60 60 (by decide) (by decide)
    (by decide) (by decide) (by decide)
  exact (h.2.2 (by decide)).1

/-- C6: whatever statement of `save_note` raises, the exception is caught
at the save boundary and logged (the log message is returned), the
function still returns a state (the session does not terminate), and the
in-memory canvas — in particular the buffer — is unchanged, so a retry
can succeed. -/
theorem save_failure_is_caught_and_buffer_preserved (app : NoteApp)
    (now : Nat) (fail : SaveFail) :
    (save_note app now fail).1.canvas = app.canvas ∧
    (save_note app now fail).1.cfg = app.cfg ∧
    (fail ≠ SaveFail.ok → ((save_note app now fail).2).isSome = true) := by
  cases fail <;> simp [save_note]

/-- Witness for `save_failure_is_caught_and_buffer_preserved`: a failing
`img.save` on a fresh session. -/
theorem save_failure_is_caught_witness :
    (save_note (freshApp defaultConfig) 0 SaveFail.writeFail).1.canvas =
      (freshApp defaultConfig).canvas ∧
    ((save_note (freshApp defaultConfig) 0 SaveFail.writeFail).2).isSome = true := by
  have h := save_failure_is_caught_and_buffer_preserved (freshApp defaultConfig) 0
    SaveFail.writeFail
  exact ⟨h.1, h.2.2 (by decide)⟩

end HandNotes
